import Mathlib

/-!
Verification development for the kudu-rs client core: a shallow embedding of
the primary-key byte codec (src/key.rs) and of the scan execution engine
(src/scanner.rs), with theorems settling the frozen specification claims.

Byte strings are modelled as `List Nat` with each byte below 256 where it
matters.  Fallible Rust code is modelled with `Except KErr`; a Rust panic
(out-of-bounds slice index, byteorder read on a short slice, `chunks(0)`)
is modelled by the distinguished error `KErr.panic`.
-/

namespace KuduRs

/-- Error model.  The crate error enum (krpc/src/error.rs and the spec error
taxonomy, spec section 7) carries messages and many variants; the claims only
need the `Serialization` class, the recoverable tablet-level classes
(tablet-gone, leader-moved, modelled from the spec since the classification
code is not under src/), and a catch-all.  `panic` is not a Rust error value:
it marks a place where the Rust code would panic. -/
inductive KErr where
  | serialization : KErr
  | panic : KErr
  | tabletGone : KErr
  | leaderMoved : KErr
  | timedOut : KErr
  | other : KErr
deriving DecidableEq, Repr

/-- Modelled from the spec (section 7): the recoverable tablet-level error
classes are tablet-gone and leader-moved; everything else is final. -/
def isRecoverableTabletError : KErr → Bool
  | .tabletGone => true
  | .leaderMoved => true
  | _ => false

/-- The column data types matched in src/key.rs encode_column. -/
inductive DataType where
  | bool | int8 | int16 | int32 | int64 | timestamp
  | float | double | binary | string
deriving DecidableEq, Repr

/-- A dynamically typed cell value, as stored by a Row.  The Row type itself
is not under src/ (only its callers are); modelled from the spec data model
(section 3).  Timestamps are the microsecond count (spec: Timestamp is Int64
microseconds); Float and Double are carried as their raw IEEE-754 bit
patterns, since the code only ever moves the bits. -/
inductive Value where
  | vBool (b : Bool)
  | vInt (v : Int)
  | vFloat (bits : Nat)
  | vDouble (bits : Nat)
  | vBytes (bs : List Nat)
  | vString (bs : List Nat)
deriving DecidableEq, Repr

/-- Modelled from the spec (section 3): a column has a stable name (opaque
identifier here), a data type, and a nullability flag. -/
structure Column where
  name : Nat
  type : DataType
  nullable : Bool
deriving DecidableEq, Repr

/-- Modelled from the spec (section 3): an ordered sequence of columns whose
first `num_primary_key_columns` form the primary key. -/
structure Schema where
  columns : List Column
  num_primary_key_columns : Nat
deriving DecidableEq, Repr

/-- The data types of the primary-key columns, in order. -/
def Schema.pkTypes (s : Schema) : List DataType :=
  (s.columns.take s.num_primary_key_columns).map Column.type

/-- Modelled from the spec (section 3): a row is a tuple of values conforming
to a schema. -/
structure Row where
  schema : Schema
  values : List Value
deriving DecidableEq, Repr

/-- Big-endian bytes of `u`, `w` bytes wide (most significant byte first). -/
def beBytes : Nat → Nat → List Nat
  | 0, _ => []
  | w + 1, u => beBytes w (u / 256) ++ [u % 256]

/-- Big-endian value of a byte list. -/
def beVal (bs : List Nat) : Nat :=
  bs.foldl (fun a b => a * 256 + b) 0

/-- Two complement reinterpretation: unsigned `u` (below `2 ^ w`) as a signed
`w`-bit integer. -/
def intOfTwos (u : Nat) (w : Nat) : Int :=
  if u < 2 ^ (w - 1) then (u : Int) else (u : Int) - 2 ^ w

/-- Unsigned `w`-bit pattern of a signed integer, as written by the byteorder
big-endian writers (the raw two complement bytes). -/
def twosOfInt (v : Int) (w : Nat) : Nat :=
  (v % (2 ^ w)).toNat

/-- src/key.rs encode_binary, non-last case, expressed through the slice
split the source uses: Rust `value.split(|x| x == 0)` yields the pieces
between zero bytes (one empty piece for an empty slice, a trailing empty
piece for a trailing zero). -/
def splitOnZero : List Nat → List (List Nat)
  | [] => [[]]
  | b :: rest =>
    if b = 0 then [] :: splitOnZero rest
    else
      match splitOnZero rest with
      | s :: ss => (b :: s) :: ss
      | [] => [[b]]

/-- src/key.rs encode_binary: the last primary-key column is appended raw;
otherwise every piece is emitted followed by the two bytes 0 1, and the very
last written byte is then overwritten with 0 (so the field ends in 0 0). -/
def encode_binary (value : List Nat) (is_last : Bool) : List Nat :=
  if is_last then value
  else
    let e := (splitOnZero value).foldl (fun acc s => acc ++ s ++ [0, 1]) []
    e.dropLast ++ [0]

/-- src/key.rs encode_column.  Returns `none` where `row.get(idx).unwrap()`
would panic on a type mismatch.  The Int64 arm reproduces the source, which
reads the column through a 32-bit getter and performs a 32-bit big-endian
write (the known bug flagged in spec section 9); modelled as a truncating
32-bit write.  SystemTime/time_to_us is modelled as the identity on the
microsecond count. -/
def encode_column (t : DataType) (v : Value) (is_last : Bool) : Option (List Nat) :=
  match t, v with
  | .bool, .vBool b => some [if b then 1 else 0]
  | .int8, .vInt v => some [twosOfInt v 8]
  | .int16, .vInt v => some (beBytes 2 (twosOfInt v 16))
  | .int32, .vInt v => some (beBytes 4 (twosOfInt v 32))
  | .int64, .vInt v => some (beBytes 4 (twosOfInt v 32))
  | .timestamp, .vInt v => some (beBytes 8 (twosOfInt v 64))
  | .float, .vFloat bits => some (beBytes 4 bits)
  | .double, .vDouble bits => some (beBytes 8 bits)
  | .binary, .vBytes bs => some (encode_binary bs is_last)
  | .string, .vString bs => some (encode_binary bs is_last)
  | _, _ => none

/-- The per-column loop of src/key.rs encode_primary_key over the typed
primary-key cells; `rest.isEmpty` is the `idx + 1 == num_primary_key_columns`
last-column test of the source. -/
def encodeColumns : List (DataType × Value) → Option (List Nat)
  | [] => some []
  | (t, v) :: rest => do
    let e ← encode_column t v rest.isEmpty
    let es ← encodeColumns rest
    some (e ++ es)

/-- src/key.rs encode_primary_key.  `none` models the panics of the source
(`row.get(idx).unwrap()` on a type mismatch or a missing value, a primary-key
count exceeding the column count). -/
def encode_primary_key (row : Row) : Option (List Nat) :=
  if row.schema.num_primary_key_columns ≤ row.schema.columns.length ∧
     row.schema.num_primary_key_columns ≤ row.values.length then
    encodeColumns ((row.schema.pkTypes).zip
      (row.values.take row.schema.num_primary_key_columns))
  else none

/-- Whether a byte is a UTF-8 continuation byte (0x80..0xBF). -/
def isCont (b : Nat) : Bool := 128 ≤ b && b < 192

/-- The UTF-8 validity check performed by Rust `String::from_utf8` (rejecting
overlong forms, surrogates and values beyond U+10FFFF), byte by byte. -/
def validUtf8 : List Nat → Bool
  | [] => true
  | b :: rest =>
    if b < 128 then validUtf8 rest
    else if b < 194 then false
    else if b < 224 then
      match rest with
      | c1 :: r => isCont c1 && validUtf8 r
      | [] => false
    else if b < 240 then
      match rest with
      | c1 :: c2 :: r =>
        (if b = 224 then 160 ≤ c1 && c1 < 192
         else if b = 237 then 128 ≤ c1 && c1 < 160
         else isCont c1) && isCont c2 && validUtf8 r
      | _ => false
    else if b < 245 then
      match rest with
      | c1 :: c2 :: c3 :: r =>
        (if b = 240 then 144 ≤ c1 && c1 < 192
         else if b = 244 then 128 ≤ c1 && c1 < 144
         else isCont c1) && isCont c2 && isCont c3 && validUtf8 r
      | _ => false
    else false

/-- The separator-scan loop of src/key.rs decode_binary, expressed byte by
byte: the source jumps to the first zero byte and copies the bytes before it
wholesale, which equals carrying the non-zero bytes into the accumulator one
at a time.  A zero byte followed by 0 ends the field, followed by 1 stands
for an escaped zero, anything else (or nothing) is a Serialization error. -/
def decodeBinaryLoop : List Nat → List Nat → Except KErr (List Nat × List Nat)
  | [], _ => .error .serialization
  | b :: rest, acc =>
    if b = 0 then
      match rest with
      | [] => .error .serialization
      | c :: r =>
        if c = 0 then .ok (acc, r)
        else if c = 1 then decodeBinaryLoop r (acc ++ [0])
        else .error .serialization
    else decodeBinaryLoop rest (acc ++ [b])

/-- src/key.rs decode_binary: the last column takes every remaining byte;
otherwise the escape encoding is reversed.  Returns (value, remaining). -/
def decode_binary (key : List Nat) (is_last : Bool) : Except KErr (List Nat × List Nat) :=
  if is_last then .ok (key, [])
  else decodeBinaryLoop key []

/-- A fixed-width big-endian read of `w` bytes, as performed by the byteorder
readers in src/key.rs decode_column.  byteorder panics when fewer than `w`
bytes remain; the panic is modelled by `KErr.panic`. -/
def readBE (w : Nat) (key : List Nat) : Except KErr (Nat × List Nat) :=
  if w ≤ key.length then .ok (beVal (key.take w), key.drop w)
  else .error .panic

/-- src/key.rs decode_column.  Indexing `key[0]` on an empty slice and the
byteorder reads on short slices are the panic cases.  The UTF-8 failure of
`String::from_utf8` is surfaced as a Serialization error (the From conversion
lives outside src/). -/
def decode_column (t : DataType) (key : List Nat) (is_last : Bool) :
    Except KErr (Value × List Nat) :=
  match t with
  | .bool =>
    match key with
    | [] => .error .panic
    | b :: rest => .ok (.vBool (decide (b ≠ 0)), rest)
  | .int8 =>
    match key with
    | [] => .error .panic
    | b :: rest => .ok (.vInt (intOfTwos b 8), rest)
  | .int16 => do
    let (u, rest) ← readBE 2 key
    .ok (.vInt (intOfTwos u 16), rest)
  | .int32 => do
    let (u, rest) ← readBE 4 key
    .ok (.vInt (intOfTwos u 32), rest)
  | .int64 => do
    let (u, rest) ← readBE 8 key
    .ok (.vInt (intOfTwos u 64), rest)
  | .timestamp => do
    let (u, rest) ← readBE 8 key
    .ok (.vInt (intOfTwos u 64), rest)
  | .float => do
    let (u, rest) ← readBE 4 key
    .ok (.vFloat u, rest)
  | .double => do
    let (u, rest) ← readBE 8 key
    .ok (.vDouble u, rest)
  | .binary => do
    let (v, rest) ← decode_binary key is_last
    .ok (.vBytes v, rest)
  | .string => do
    let (v, rest) ← decode_binary key is_last
    if validUtf8 v then .ok (.vString v, rest) else .error .serialization

/-- The per-column loop of src/key.rs decode_primary_key; `rest.isEmpty` is
the last-column test. -/
def decodeColumns : List DataType → List Nat → Except KErr (List Value × List Nat)
  | [], key => .ok ([], key)
  | t :: ts, key => do
    let (v, rest) ← decode_column t key ts.isEmpty
    let (vs, rest2) ← decodeColumns ts rest
    .ok (v :: vs, rest2)

/-- src/key.rs decode_primary_key: decode every primary-key column in order,
then require the remainder to be empty (otherwise a Serialization error).
A primary-key count exceeding the column count would make the source index
out of bounds, modelled by `KErr.panic`. -/
def decode_primary_key (schema : Schema) (key : List Nat) : Except KErr (List Value) :=
  if schema.num_primary_key_columns ≤ schema.columns.length then do
    let (vs, rest) ← decodeColumns schema.pkTypes key
    if rest.isEmpty then .ok vs else .error .serialization
  else .error .panic

/-- Byte-wise (memcmp) three-way comparison of byte strings. -/
def memcmp : List Nat → List Nat → Ordering
  | [], [] => .eq
  | [], _ :: _ => .lt
  | _ :: _, [] => .gt
  | a :: as', b :: bs' =>
    if a < b then .lt else if b < a then .gt else memcmp as' bs'

/-- memcmp less-or-equal as a Boolean. -/
def leB (a b : List Nat) : Bool :=
  match memcmp a b with
  | .gt => false
  | _ => true

/-- memcmp strictly-less as a Boolean. -/
def ltB (a b : List Nat) : Bool :=
  match memcmp a b with
  | .lt => true
  | _ => false

/-- Well-formedness of a cell value for a declared type: the value has the
matching runtime type and is in range (machine integers in their signed
range, float bit patterns in width, byte-string entries actual bytes,
strings valid UTF-8). -/
def wfValue : DataType → Value → Bool
  | .bool, .vBool _ => true
  | .int8, .vInt v => -128 ≤ v && v < 128
  | .int16, .vInt v => -(2 ^ 15) ≤ v && v < 2 ^ 15
  | .int32, .vInt v => -(2 ^ 31) ≤ v && v < 2 ^ 31
  | .int64, .vInt v => -(2 ^ 63) ≤ v && v < 2 ^ 63
  | .timestamp, .vInt v => -(2 ^ 63) ≤ v && v < 2 ^ 63
  | .float, .vFloat bits => bits < 2 ^ 32
  | .double, .vDouble bits => bits < 2 ^ 64
  | .binary, .vBytes bs => bs.all (· < 256)
  | .string, .vString bs => bs.all (· < 256) && validUtf8 bs
  | _, _ => false

/-! ## Scanner (src/scanner.rs) -/

/-- Modelled from the spec (section 6, rowwise wire layout): the on-wire
fixed width of a column by type; variable-length columns occupy an 8-byte
offset plus an 8-byte length. -/
def typeSize : DataType → Nat
  | .bool => 1
  | .int8 => 1
  | .int16 => 2
  | .int32 => 4
  | .int64 => 8
  | .timestamp => 8
  | .float => 4
  | .double => 8
  | .binary => 16
  | .string => 16

/-- Modelled from the spec (section 4.4): `Schema::row_len` is the sum of the
fixed widths of the projected columns.  The Schema implementation itself is
not under src/. -/
def Schema.row_len (s : Schema) : Nat :=
  (s.columns.map (fun c => typeSize c.type)).sum

/-- Modelled from the spec (section 4.4): whether any projected column is
nullable. -/
def Schema.has_nullable_columns (s : Schema) : Bool :=
  s.columns.any Column.nullable

/-- Modelled from the spec (sections 4.4 and 6): the null bitmap occupies
ceil(num_columns / 8) bytes. -/
def Schema.bitmap_len (s : Schema) : Nat :=
  (s.columns.length + 7) / 8

/-- The row length used by RowBatch::new and the RowBatch iterator:
`row_len() + has_nullable_columns() as usize * bitmap_len()`. -/
def rowLenTotal (s : Schema) : Nat :=
  s.row_len + (if s.has_nullable_columns then 1 else 0) * s.bitmap_len

/-- The RowwiseRowBlockPb fields consumed by RowBatch::new: `num_rows` (the
usize value after the source `as usize` cast) and the two optional sidecar
indices (protobuf int32, hence `Int`). -/
structure RowwiseRowBlockPb where
  num_rows : Nat
  rows_sidecar : Option Int
  indirect_data_sidecar : Option Int
deriving DecidableEq, Repr

/-- src/scanner.rs RowBatch: projected schema, row count, the rows buffer and
the indirect-data buffer. -/
structure RowBatch where
  projected_schema : Schema
  len : Nat
  data : List Nat
  indirect_data : List Nat
deriving DecidableEq, Repr

/-- src/scanner.rs RowBatch::new.  The rows sidecar must be present,
non-negative and in range; it is taken out of the sidecar vector by
`mem::replace` (leaving an empty buffer, visible to the indirect lookup).
The indirect sidecar may be absent (empty buffer) but a present index must be
non-negative and in range.  `num_rows * row_len` must not overflow a usize
(modelled as `< 2 ^ 64`) and must equal the rows buffer length.  The in-place
rewrite of variable-length offsets to absolute pointers changes neither
lengths nor row boundaries and is memory-address dependent, so the buffers
are kept as delivered.  `rowBatchFinish` is the tail of RowBatch::new after
both sidecars are resolved: the checked multiplication (usize overflow
modelled as `< 2 ^ 64`) and the length check. -/
def rowBatchFinish (projected_schema : Schema) (num_rows : Nat)
    (data indirect_data : List Nat) : Except KErr RowBatch :=
  if num_rows * rowLenTotal projected_schema < 2 ^ 64 then
    if num_rows * rowLenTotal projected_schema = data.length then
      .ok ⟨projected_schema, num_rows, data, indirect_data⟩
    else .error .serialization
  else .error .serialization

def RowBatch.new (projected_schema : Schema) (block : RowwiseRowBlockPb)
    (sidecars : List (List Nat)) : Except KErr RowBatch :=
  match block.rows_sidecar with
  | none => .error .serialization
  | some idx =>
    if idx < 0 then .error .serialization
    else
      match sidecars[idx.toNat]? with
      | none => .error .serialization
      | some data =>
        match block.indirect_data_sidecar with
        | none => rowBatchFinish projected_schema block.num_rows data []
        | some idx2 =>
          if idx2 < 0 then .error .serialization
          else
            match (sidecars.set idx.toNat [])[idx2.toNat]? with
            | none => .error .serialization
            | some sc => rowBatchFinish projected_schema block.num_rows data sc

/-- Rust `slice::chunks(k)`: consecutive chunks of `k` elements (the last one
possibly shorter); `chunks` panics when `k = 0`, which the callers below
model separately. -/
def chunkList (l : List Nat) (k : Nat) : List (List Nat) :=
  if l.isEmpty ∨ k = 0 then []
  else l.take k :: chunkList (l.drop k) k
termination_by l.length
decreasing_by
  rename_i h
  rw [not_or] at h
  rcases l with _ | ⟨a, l⟩
  · simp [List.isEmpty] at h
  · simp only [List.length_drop, List.length_cons]
    omega

/-- src/scanner.rs `impl IntoIterator for &RowBatch`: recompute the row
length from the projected schema and chunk the rows buffer.  A row is
modelled by its contiguous byte slice (`Row::contiguous`).  `chunks(0)`
panics in Rust, modelled by `KErr.panic`. -/
def RowBatch.into_iter (b : RowBatch) : Except KErr (List (List Nat)) :=
  let row_len := rowLenTotal b.projected_schema
  if row_len = 0 then .error .panic
  else .ok (chunkList b.data row_len)

/-- An opaque connection handle (krpc Proxy). -/
structure Proxy where
  id : Nat
deriving DecidableEq, Repr

/-- A tablet as consumed by the scanner: identity and the encoded primary-key
range, where an empty bound means infinity (spec section 3). -/
structure Tablet where
  tid : List Nat
  lower_bound : List Nat
  upper_bound : List Nat
deriving DecidableEq, Repr

/-- src/scanner.rs column_to_pb output: name, type and nullability of a
projected column. -/
structure ColumnSchemaPb where
  name : Nat
  type_ : DataType
  is_nullable : Option Bool
deriving DecidableEq, Repr

/-- The open-scan request payload built by Scan::new_scan_request. -/
structure NewScanRequestPb where
  tablet_id : List Nat
  projected_columns : List ColumnSchemaPb
deriving DecidableEq, Repr

/-- A server-side scanner identifier; `ScannerId::parse_bytes` is modelled as
the identity on the raw bytes. -/
def ScannerId := List Nat
deriving DecidableEq, Repr

/-- The ScanRequestPb fields set by TabletScan::new and TabletScan::cont
(`ScanRequestPb::default()` leaves every field `none`). -/
structure ScanRequestPb where
  new_scan_request : Option NewScanRequestPb
  scanner_id : Option ScannerId
  call_seq_id : Option Nat
deriving DecidableEq, Repr

/-- The replica speculation policy (replica module, not under src/; variants
from the spec, section 4.3).  Staggered carries its delay in milliseconds. -/
inductive Speculation where
  | Full : Speculation
  | Staggered (millis : Nat) : Speculation
  | None : Speculation
deriving DecidableEq, Repr

/-- The replica selection policy (spec section 4.3). -/
inductive Selection where
  | Leader : Selection
  | Closest : Selection
deriving DecidableEq, Repr

/-- The parameters a ReplicaRpc is constructed with in src/scanner.rs:
`ReplicaRpc::new(target, call, speculation, selection, backoff)`.  The call
deadline and the backoff policy involve real time and are not modelled. -/
structure ReplicaRpc (T : Type) where
  target : T
  request : ScanRequestPb
  speculation : Speculation
  selection : Selection
deriving DecidableEq, Repr

/-- The ScanResponsePb fields consumed by TabletScan::poll. -/
structure ScanResponsePb where
  has_more_results : Bool
  scanner_id : Option ScannerId
  data : Option RowwiseRowBlockPb
deriving DecidableEq, Repr

/-- src/scanner.rs enum TabletScan: the per-tablet sub-state machine. -/
inductive TabletScan where
  | New (projected_schema : Schema) (rpc : ReplicaRpc Tablet) : TabletScan
  | Continue (projected_schema : Schema) (scanner_id : ScannerId)
      (call_seq_id : Nat) (rpc : ReplicaRpc Proxy) : TabletScan
  | Finished : TabletScan
deriving DecidableEq, Repr

/-- src/scanner.rs TabletScan::new: an open-scan RPC with
`Speculation::Staggered(100 ms)` and `Selection::Closest` against the
tablet. -/
def TabletScan.new (projected_schema : Schema) (tablet : Tablet)
    (new_scan_request : NewScanRequestPb) : TabletScan :=
  .New projected_schema
    ⟨tablet, ⟨some new_scan_request, none, none⟩, .Staggered 100, .Closest⟩

/-- src/scanner.rs TabletScan::cont: a continue-scan RPC carrying the scanner
id and the call sequence id, with `Speculation::Full` against the single
pinned proxy. -/
def TabletScan.cont (projected_schema : Schema) (scanner_id : ScannerId)
    (call_seq_id : Nat) (proxy : Proxy) : TabletScan :=
  .Continue projected_schema scanner_id call_seq_id
    ⟨proxy, ⟨none, some scanner_id, some call_seq_id⟩, .Full, .Closest⟩

/-- The outcome of one poll of a scan stream (`Poll<Option<RowBatch>, Error>`):
a batch or end-of-stream, not-ready, or an error.  `Stuck` is an artifact of
the trace embedding below marking an oracle event that does not match the
state; it is never produced on a well-formed trace. -/
inductive PollOut where
  | Ready (batch : Option RowBatch) : PollOut
  | NotReady : PollOut
  | Err (e : KErr) : PollOut
  | Stuck : PollOut
deriving DecidableEq, Repr

/-- The result of one poll of the underlying ReplicaRpc future, as consumed
by TabletScan::poll: the winning proxy with the response and its sidecars,
not-ready, or an error. -/
inductive RpcPoll where
  | Ready (proxy : Proxy) (response : ScanResponsePb)
      (sidecars : List (List Nat)) : RpcPoll
  | NotReady : RpcPoll
  | Err (e : KErr) : RpcPoll
deriving DecidableEq, Repr

/-- The default RowwiseRowBlockPb substituted by
`response.data.take().unwrap_or_default()`. -/
def defaultBlock : RowwiseRowBlockPb := ⟨0, none, none⟩

/-- src/scanner.rs `impl Stream for TabletScan`: one call of poll, driven by
the result of the inner `rpc.poll()`.  On a response the batch is decoded
first; a decode failure (or a missing scanner id when more results are
announced) propagates the error and leaves the state unchanged, exactly as
the `?` operator does there.  With more results the state moves to Continue
pinned to the winning proxy, with the call sequence id starting at 1 and then
increasing by 1; otherwise to Finished. -/
def TabletScan.poll : TabletScan → RpcPoll → TabletScan × PollOut
  | .Finished, _ => (.Finished, .Ready none)
  | .New ps rpc, r =>
    match r with
    | .NotReady => (.New ps rpc, .NotReady)
    | .Err e => (.New ps rpc, .Err e)
    | .Ready proxy resp sidecars =>
      match RowBatch.new ps (resp.data.getD defaultBlock) sidecars with
      | .error e => (.New ps rpc, .Err e)
      | .ok batch =>
        if resp.has_more_results then
          match resp.scanner_id with
          | none => (.New ps rpc, .Err .serialization)
          | some sid => (TabletScan.cont ps sid 1 proxy, .Ready (some batch))
        else (.Finished, .Ready (some batch))
  | .Continue ps sid n rpc, r =>
    match r with
    | .NotReady => (.Continue ps sid n rpc, .NotReady)
    | .Err e => (.Continue ps sid n rpc, .Err e)
    | .Ready proxy resp sidecars =>
      match RowBatch.new ps (resp.data.getD defaultBlock) sidecars with
      | .error e => (.Continue ps sid n rpc, .Err e)
      | .ok batch =>
        if resp.has_more_results then
          (TabletScan.cont ps sid (n + 1) proxy, .Ready (some batch))
        else (.Finished, .Ready (some batch))

/-- A meta-cache entry (meta_cache module, not under src/; modelled from the
spec, section 3): the covering tablet or a non-covered range. -/
inductive Entry where
  | Tablet (t : Tablet) : Entry
  | NonCoveredRange (lower_bound upper_bound : List Nat) : Entry
deriving DecidableEq, Repr

/-- The result of one poll of a meta-cache lookup future. -/
inductive LookupPoll where
  | Ready (e : Entry) : LookupPoll
  | NotReady : LookupPoll
  | Err (e : KErr) : LookupPoll
deriving DecidableEq, Repr

/-- src/scanner.rs enum ScannerState.  A pending `Lookup` future is
represented by the key it was created with
(`table_locations.entry(key)`). -/
inductive ScannerState where
  | Lookup (key : List Nat) : ScannerState
  | Scan (tablet : Tablet) (tablet_scan : TabletScan) : ScannerState
  | Finished : ScannerState
deriving DecidableEq, Repr

/-- src/scanner.rs struct Scan (the TableLocations handle is opaque and
omitted). -/
structure Scan where
  projected_schema : Schema
  state : ScannerState
deriving DecidableEq, Repr

/-- src/scanner.rs ScanBuilder (the TableLocations handle omitted). -/
structure ScanBuilder where
  table_schema : Schema
  projected_columns : List Nat
deriving DecidableEq, Repr

/-- src/scanner.rs ScanBuilder::build: project the chosen columns and start
in `Lookup` at the empty (minus-infinity) key.  Indexing with an invalid
column index would panic; `none` models that (the builder setters validate
indices). -/
def ScanBuilder.build (b : ScanBuilder) : Option Scan :=
  if b.projected_columns.all (· < b.table_schema.columns.length) then
    some ⟨⟨b.projected_columns.filterMap (b.table_schema.columns[·]?), 0⟩,
          .Lookup []⟩
  else none

/-- src/scanner.rs Scan::new_scan_request: tablet id plus the projected
columns, via column_to_pb. -/
def Scan.new_scan_request (projected_schema : Schema) (tablet : Tablet) :
    NewScanRequestPb :=
  ⟨tablet.tid,
   projected_schema.columns.map (fun c => ⟨c.name, c.type, some c.nullable⟩)⟩

/-- One oracle event driving Scan::poll: the result of polling the current
sub-state future (a meta-cache lookup, or the tablet scan through its
ReplicaRpc). -/
inductive SubPoll where
  | lk (r : LookupPoll) : SubPoll
  | ts (r : RpcPoll) : SubPoll
deriving DecidableEq, Repr

/-- One iteration of the loop in src/scanner.rs `impl Stream for Scan`:
`mem::replace` first puts `Finished` in place, so an error from either
sub-state leaves the scan `Finished` while the error is returned.  A
non-covered range or a drained tablet with a non-empty upper bound re-enters
`Lookup` at that upper bound; an empty upper bound leaves the state
`Finished`.  The second component is `none` when the loop continues without
returning. -/
def Scan.step (ps : Schema) : ScannerState → SubPoll → ScannerState × Option PollOut
  | .Lookup k, .lk r =>
    match r with
    | .Err e => (.Finished, some (.Err e))
    | .NotReady => (.Lookup k, some .NotReady)
    | .Ready (.Tablet t) =>
      (.Scan t (TabletScan.new ps t (Scan.new_scan_request ps t)), none)
    | .Ready (.NonCoveredRange _ ub) =>
      (if ub.isEmpty then .Finished else .Lookup ub, none)
  | .Scan t ts, .ts r =>
    match TabletScan.poll ts r with
    | (ts', .Ready (some batch)) => (.Scan t ts', some (.Ready (some batch)))
    | (_, .Ready none) =>
      (if t.upper_bound.isEmpty then .Finished else .Lookup t.upper_bound, none)
    | (ts', .NotReady) => (.Scan t ts', some .NotReady)
    | (_, .Err e) => (.Finished, some (.Err e))
    | (_, .Stuck) => (.Finished, some .Stuck)
  | .Finished, _ => (.Finished, some (.Ready none))
  | .Lookup k, .ts _ => (.Lookup k, some .Stuck)
  | .Scan t ts, .lk _ => (.Scan t ts, some .Stuck)

/-- One call of Scan::poll on a trace of oracle events: iterate `Scan.step`
until an arm returns; the `Finished` arm returns without polling anything.
The results are the final state, the poll result (`none` when the trace is
exhausted first), and the unconsumed events. -/
def Scan.pollRun (ps : Schema) :
    ScannerState → List SubPoll → ScannerState × Option PollOut × List SubPoll
  | .Finished, rs => (.Finished, some (.Ready none), rs)
  | s, [] => (s, none, [])
  | s, r :: rs =>
    match Scan.step ps s r with
    | (s', some out) => (s', some out, rs)
    | (s', none) => Scan.pollRun ps s' rs

/-- The states visited while iterating `Scan.step` over a trace, the start
state included. -/
def runStates (ps : Schema) : ScannerState → List SubPoll → List ScannerState
  | s, [] => [s]
  | s, r :: rs => s :: runStates ps (Scan.step ps s r).1 rs

/-- The key of a pending lookup state. -/
def stateKey : ScannerState → Option (List Nat)
  | .Lookup k => some k
  | _ => none

/-- The lower-bound keys handed to successive meta-cache lookups along a
trace. -/
def lookupKeys (ps : Schema) (s : ScannerState) (rs : List SubPoll) : List (List Nat) :=
  (runStates ps s rs).filterMap stateKey

/-- Modelled from the spec (section 4.2): the meta-cache contract that
`entry(key)` resolves to an entry whose range contains the key, of which only
the upper-bound half is needed: the returned upper bound lies strictly above
the looked-up key unless it is the infinite (empty) bound.  Events that do
not match the pending sub-state are excluded. -/
def CompatB : ScannerState → SubPoll → Bool
  | .Lookup k, .lk r =>
    match r with
    | .Ready (.Tablet t) => t.upper_bound.isEmpty || ltB k t.upper_bound
    | .Ready (.NonCoveredRange _ ub) => ub.isEmpty || ltB k ub
    | _ => true
  | .Scan _ _, .ts _ => true
  | .Finished, _ => true
  | _, _ => false

/-- A whole trace of oracle events compatible with the meta-cache
contract. -/
def CompatRun (ps : Schema) : ScannerState → List SubPoll → Bool
  | _, [] => true
  | s, r :: rs => CompatB s r && CompatRun ps (Scan.step ps s r).1 rs

/-- Adjacent pairs are memcmp non-decreasing. -/
def monotoneB : List (List Nat) → Bool
  | [] => true
  | [_] => true
  | a :: b :: rest => leB a b && monotoneB (b :: rest)

/-- The invariant tying a state to the last lookup key emitted: a pending
lookup key, and the upper bound of the tablet being drained, are at or above
it. -/
def boundOk (last : List Nat) : ScannerState → Bool
  | .Lookup k => leB last k
  | .Scan t _ => t.upper_bound.isEmpty || leB last t.upper_bound
  | .Finished => true

/-! ## Concrete fixtures used by the claim theorems -/

/-- A schema with a single non-null Int32 primary-key column. -/
def sInt32Pk : Schema := ⟨[⟨0, .int32, false⟩], 1⟩

/-- A schema with a single non-null Int64 primary-key column. -/
def sInt64Pk : Schema := ⟨[⟨0, .int64, false⟩], 1⟩

/-- A schema with a single non-null Double primary-key column. -/
def sDoublePk : Schema := ⟨[⟨0, .double, false⟩], 1⟩

/-- A schema with primary key (String, Int32), the String column not
last. -/
def sStrInt32Pk : Schema := ⟨[⟨0, .string, false⟩, ⟨1, .int32, false⟩], 2⟩

/-- The seed schema of the claims: (a String, b Int32, c String), all three
columns the primary key. -/
def sSeed : Schema :=
  ⟨[⟨0, .string, false⟩, ⟨1, .int32, false⟩, ⟨2, .string, false⟩], 3⟩

/-- The bytes of the seed string with four embedded zeros
(f u z z 0 0 0 0 b u s t e r). -/
def seedA : List Nat := [102, 117, 122, 122, 0, 0, 0, 0, 98, 117, 115, 116, 101, 114]

/-- The bytes of the seed string with three trailing zeros
(c a l i b r i 0 0 0). -/
def seedC : List Nat := [99, 97, 108, 105, 98, 114, 105, 0, 0, 0]

/-- The seed row of the claims. -/
def seedRow : Row := ⟨sSeed, [.vString seedA, .vInt 99, .vString seedC]⟩

/-- An empty projected schema (a scan with an empty projection). -/
def psEmpty : Schema := ⟨[], 0⟩

/-- A tablet fixture with a non-empty upper bound. -/
def t0 : Tablet := ⟨[1], [], [5]⟩

/-- The tablet scan the Scan state machine builds when entering the Scan
state on `t0`. -/
def ts0 : TabletScan := TabletScan.new psEmpty t0 (Scan.new_scan_request psEmpty t0)

/-- A row block announcing two rows in sidecar 0. -/
def blkTwo : RowwiseRowBlockPb := ⟨2, some 0, none⟩

/-- A row block announcing two rows in sidecar 0 (used with a non-empty
projection). -/
def blkTwoRows : RowwiseRowBlockPb := ⟨2, some 0, none⟩

/-- The zero-escape applied by encode_binary to a non-last value: every 0
byte becomes the pair 0 1.  The terminator 0 0 is appended separately.  Used
to state what the split-and-join of the source amounts to. -/
def escZeros : List Nat → List Nat
  | [] => []
  | b :: rest => if b = 0 then 0 :: 1 :: escZeros rest else b :: escZeros rest

/-- A row (given as a schema plus a value list) is valid under the primary
key of its schema: the key columns exist, each key cell is present and
well-formed for the declared type. -/
def wfRow (s : Schema) (vals : List Value) : Bool :=
  decide (s.num_primary_key_columns ≤ s.columns.length) &&
  decide (s.num_primary_key_columns ≤ vals.length) &&
  (s.pkTypes.zip (vals.take s.num_primary_key_columns)).all
    (fun p => wfValue p.1 p.2)

/-- No primary-key column has type Int64 (the type whose encoding is the
known source bug). -/
def pkNoInt64 (s : Schema) : Bool :=
  s.pkTypes.all (· ≠ .int64)

/-! ## C1 -/

/-- C1: the claim fails on the code.  encode_column writes signed integers as
raw big-endian two complement and doubles as raw IEEE-754 bits, with no
order-preserving transform, so the encoding of the Int32 key -1 is
memcmp-greater than the encoding of 0, and the encoding of the Double key
-1.0 (bit pattern 0xBFF0000000000000) is memcmp-greater than the encoding of
0.0 — the opposite of the strictly increasing order the claim requires. -/
theorem C1_key_encodings_not_memcmp_ordered :
    encode_primary_key ⟨sInt32Pk, [.vInt (-1)]⟩ = some [255, 255, 255, 255] ∧
    encode_primary_key ⟨sInt32Pk, [.vInt 0]⟩ = some [0, 0, 0, 0] ∧
    memcmp [255, 255, 255, 255] [0, 0, 0, 0] = .gt ∧
    (-1 : Int) < 0 ∧
    encode_primary_key ⟨sDoublePk, [.vDouble 0xBFF0000000000000]⟩ =
      some [191, 240, 0, 0, 0, 0, 0, 0] ∧
    encode_primary_key ⟨sDoublePk, [.vDouble 0]⟩ =
      some [0, 0, 0, 0, 0, 0, 0, 0] ∧
    memcmp [191, 240, 0, 0, 0, 0, 0, 0] [0, 0, 0, 0, 0, 0, 0, 0] = .gt := by
  decide

/-! ## C2 -/

/-- C2: the claim fails on the code.  The Int64 arm of encode_column reads
the column through a 32-bit getter and performs a 32-bit big-endian write, so
the Int64 key 1 is encoded as the four bytes 00 00 00 01 instead of a full
8-byte write; and no arm flips the sign bit, so the Int32 key -1 is encoded
as FF FF FF FF instead of the sign-flipped 7F FF FF FF. -/
theorem C2_int64_key_encoded_as_32bit_without_sign_flip :
    encode_primary_key ⟨sInt64Pk, [.vInt 1]⟩ = some [0, 0, 0, 1] ∧
    ([0, 0, 0, 1] : List Nat).length = 4 ∧
    encode_primary_key ⟨sInt32Pk, [.vInt (-1)]⟩ = some [255, 255, 255, 255] ∧
    ([255, 255, 255, 255] : List Nat) ≠ [127, 255, 255, 255] := by
  decide

/-! ## C5 -/

/-- C5: the claim fails on the code at a truncated fixed-width column.
decode_column performs unchecked slice reads, so decoding the two-byte input
00 01 against an Int32 key column panics (modelled by `KErr.panic`) instead
of returning a Serialization error; the other two scenarios of the claim do
return Serialization errors (bytes remaining after the last column, and a
0x00 escape followed by 0x02 or by nothing in a non-last String column). -/
theorem C5_truncated_fixed_width_panics :
    decode_primary_key sInt32Pk [0, 1] = .error .panic ∧
    decode_primary_key sInt32Pk [0, 0, 0, 0, 9] = .error .serialization ∧
    decode_primary_key sStrInt32Pk [0, 2, 1, 2, 3] = .error .serialization ∧
    decode_primary_key sStrInt32Pk [5, 0] = .error .serialization :=
  ⟨rfl, rfl, rfl, rfl⟩

/-! ## C3 -/

/-- C3 counterexample: the round trip fails for an Int64 primary-key column.
The row holding the well-formed Int64 value 1 encodes to the four bytes
00 00 00 01 (32-bit write), and decoding that key panics (the decoder reads
eight bytes), so decode(encode(r)) is not r. -/
theorem C3_counterexample_int64_roundtrip_fails :
    wfValue .int64 (.vInt 1) = true ∧
    encode_primary_key ⟨sInt64Pk, [.vInt 1]⟩ = some [0, 0, 0, 1] ∧
    decode_primary_key sInt64Pk [0, 0, 0, 1] = .error .panic :=
  ⟨rfl, rfl, rfl⟩

/-! ## C4 -/

/-- C4 counterexample: a recoverable tablet-level error (the tablet-gone
class) surfaced while polling the tablet-scan sub-state does not return the
scan to the Lookup state — the scan state becomes Finished and the error is
returned, ending the stream. -/
theorem C4_counterexample_recoverable_error_not_relooked :
    isRecoverableTabletError .tabletGone = true ∧
    Scan.step psEmpty (.Scan t0 ts0) (.ts (.Err .tabletGone)) =
      (.Finished, some (.Err .tabletGone)) ∧
    ScannerState.Finished ≠ ScannerState.Lookup t0.lower_bound := by
  refine ⟨rfl, rfl, ?_⟩
  decide

/-- C4 as amended: every error surfaced from a lookup or tablet-scan
sub-state, recoverable tablet-level or not, ends the stream: Scan::poll
returns the error with the scan state left Finished (the state
`mem::replace` put there), and no transition back to Lookup happens for any
error class. -/
theorem C4_every_suberror_ends_the_stream :
    (∀ (ps : Schema) (s : ScannerState) (r : SubPoll) (s' : ScannerState) (e : KErr),
      Scan.step ps s r = (s', some (.Err e)) → s' = .Finished) ∧
    (∀ (ps : Schema) (k : List Nat) (e : KErr),
      Scan.step ps (.Lookup k) (.lk (.Err e)) = (.Finished, some (.Err e))) ∧
    (∀ (ps : Schema) (t : Tablet) (ts : TabletScan) (r : RpcPoll) (e : KErr),
      (TabletScan.poll ts r).2 = .Err e →
      Scan.step ps (.Scan t ts) (.ts r) = (.Finished, some (.Err e))) := by
  refine ⟨?_, fun ps k e => rfl, ?_⟩
  · intro ps s r s' e h
    cases s with
    | Lookup k =>
      cases r with
      | lk rr => cases rr with
        | Ready en =>
          cases en with
          | Tablet t => simp [Scan.step] at h
          | NonCoveredRange lb ub => simp [Scan.step] at h
        | NotReady => simp [Scan.step] at h
        | Err e2 => simp [Scan.step] at h; exact h.1.symm
      | ts rr => simp [Scan.step] at h
    | Scan t ts =>
      cases r with
      | lk rr => simp [Scan.step] at h
      | ts rr =>
        rcases htp : TabletScan.poll ts rr with ⟨ts', out⟩
        cases out with
        | Ready ob =>
          cases ob with
          | none => simp [Scan.step, htp] at h
          | some b => simp [Scan.step, htp] at h
        | NotReady => simp [Scan.step, htp] at h
        | Err e2 => simp [Scan.step, htp] at h; exact h.1.symm
        | Stuck => simp [Scan.step, htp] at h
    | Finished => cases r <;> simp [Scan.step] at h
  · intro ps t ts r e h
    rcases htp : TabletScan.poll ts r with ⟨ts', out⟩
    rw [htp] at h
    cases out with
    | Ready ob => simp at h
    | NotReady => simp at h
    | Err e2 =>
      simp at h
      subst h
      simp [Scan.step, htp]
    | Stuck => simp at h

/-- C4 witness: the amended theorem applied at a concrete erroring poll of
the tablet-scan sub-state. -/
theorem C4_every_suberror_ends_the_stream_witness :
    (TabletScan.poll ts0 (.Err .timedOut)).2 = .Err .timedOut ∧
    Scan.step psEmpty (.Scan t0 ts0) (.ts (.Err .timedOut)) =
      (.Finished, some (.Err .timedOut)) :=
  ⟨rfl, C4_every_suberror_ends_the_stream.2.2 psEmpty t0 ts0 (.Err .timedOut) .timedOut rfl⟩

/-! ## C6 -/

/-- C6 counterexample: with an empty projection the row length is 0, so a
RowBatch carrying two rows of length 0 is constructed successfully (2 times 0
matches the empty rows sidecar), but iterating it panics — Rust
`slice::chunks` panics on a zero chunk size — instead of yielding exactly two
rows. -/
theorem C6_counterexample_empty_projection_iter_panics :
    RowBatch.new psEmpty blkTwo [[]] = .ok ⟨psEmpty, 2, [], []⟩ ∧
    RowBatch.into_iter ⟨psEmpty, 2, [], []⟩ = .error .panic ∧
    (2 : Nat) ≠ 0 := by
  refine ⟨rfl, rfl, ?_⟩
  decide

/-! ## Helper lemmas for RowBatch -/

theorem rowBatchFinish_ok {ps : Schema} {n : Nat} {data ind : List Nat} {b : RowBatch}
    (h : rowBatchFinish ps n data ind = .ok b) :
    b = ⟨ps, n, data, ind⟩ ∧ n * rowLenTotal ps = data.length := by
  unfold rowBatchFinish at h
  split at h
  · split at h
    · rename_i h2
      exact ⟨by injection h with h3; exact h3.symm, h2⟩
    · simp at h
  · simp at h

theorem rowBatchNew_ok {ps : Schema} {blk : RowwiseRowBlockPb} {scs : List (List Nat)}
    {b : RowBatch} (h : RowBatch.new ps blk scs = .ok b) :
    b.projected_schema = ps ∧ b.len = blk.num_rows ∧
    blk.num_rows * rowLenTotal ps = b.data.length := by
  unfold RowBatch.new at h
  split at h
  · simp at h
  · split at h
    · simp at h
    · split at h
      · simp at h
      · split at h
        · rcases rowBatchFinish_ok h with ⟨hb, hlen⟩
          subst hb
          exact ⟨rfl, rfl, hlen⟩
        · split at h
          · simp at h
          · split at h
            · simp at h
            · rcases rowBatchFinish_ok h with ⟨hb, hlen⟩
              subst hb
              exact ⟨rfl, rfl, hlen⟩

theorem chunkList_exact {k : Nat} (hk : 0 < k) :
    ∀ (n : Nat) (l : List Nat), l.length = n * k →
      (chunkList l k).length = n ∧ (chunkList l k).flatten = l ∧
      ∀ c ∈ chunkList l k, c.length = k := by
  intro n
  induction n with
  | zero =>
    intro l hl
    simp at hl
    subst hl
    rw [chunkList]
    simp
  | succ m ih =>
    intro l hl
    rw [Nat.succ_mul] at hl
    have hne : ¬l.isEmpty := by
      cases l
      · simp at hl; omega
      · simp
    rw [chunkList]
    have hcond : ¬(l.isEmpty = true ∨ k = 0) := by
      push_neg
      exact ⟨by simpa using hne, by omega⟩
    rw [if_neg hcond]
    have hdrop : (l.drop k).length = m * k := by
      simp [List.length_drop]
      omega
    rcases ih (l.drop k) hdrop with ⟨ih1, ih2, ih3⟩
    refine ⟨by simp [ih1], ?_, ?_⟩
    · simp [ih2, List.take_append_drop]
    · intro c hc
      rcases List.mem_cons.mp hc with rfl | hc2
      · simp [List.length_take]
        omega
      · exact ih3 c hc2

/-- C6 as amended: for every successfully constructed RowBatch whose
projected row length is positive, iterating the batch yields exactly
`num_rows` row slices, in insertion order (their concatenation is the rows
buffer), each of the projected row length; when the row length is 0 (empty
projection) the iterator construction panics instead. -/
theorem C6_iteration_yields_num_rows (ps : Schema) (blk : RowwiseRowBlockPb)
    (scs : List (List Nat)) (b : RowBatch)
    (h : RowBatch.new ps blk scs = .ok b) (hpos : 0 < rowLenTotal ps) :
    ∃ rows, RowBatch.into_iter b = .ok rows ∧
      rows.length = b.len ∧ rows.length = blk.num_rows ∧
      rows.flatten = b.data ∧ ∀ r ∈ rows, r.length = rowLenTotal ps := by
  rcases rowBatchNew_ok h with ⟨hps, hlen, hdata⟩
  rcases chunkList_exact hpos blk.num_rows b.data hdata.symm with ⟨h1, h2, h3⟩
  refine ⟨chunkList b.data (rowLenTotal ps), ?_, ?_, ?_, h2, h3⟩
  · unfold RowBatch.into_iter
    rw [hps, if_neg (by omega)]
  · rw [h1, hlen]
  · exact h1

/-- C6 witness: a two-row batch over a single-Int32 projection (row length
4), built from an 8-byte rows sidecar, iterates to exactly two rows. -/
theorem C6_iteration_yields_num_rows_witness :
    RowBatch.new sInt32Pk blkTwoRows [[1, 2, 3, 4, 5, 6, 7, 8]] =
      .ok ⟨sInt32Pk, 2, [1, 2, 3, 4, 5, 6, 7, 8], []⟩ ∧
    0 < rowLenTotal sInt32Pk ∧
    ∃ rows, RowBatch.into_iter ⟨sInt32Pk, 2, [1, 2, 3, 4, 5, 6, 7, 8], []⟩ = .ok rows ∧
      rows.length = RowBatch.len ⟨sInt32Pk, 2, [1, 2, 3, 4, 5, 6, 7, 8], []⟩ ∧
      rows.length = blkTwoRows.num_rows ∧
      rows.flatten = RowBatch.data ⟨sInt32Pk, 2, [1, 2, 3, 4, 5, 6, 7, 8], []⟩ ∧
      ∀ r ∈ rows, r.length = rowLenTotal sInt32Pk :=
  ⟨rfl, by decide,
   C6_iteration_yields_num_rows sInt32Pk blkTwoRows [[1, 2, 3, 4, 5, 6, 7, 8]]
     ⟨sInt32Pk, 2, [1, 2, 3, 4, 5, 6, 7, 8], []⟩ rfl (by decide)⟩

/-! ## C7 -/

/-- A successful optional index implies the index is in range. -/
theorem getElemq_lt {l : List (List Nat)} {n : Nat} {a : List Nat}
    (h : l[n]? = some a) : n < l.length := by
  by_contra hc
  rw [List.getElem?_eq_none_iff.mpr (by omega)] at h
  exact Option.noConfusion h

/-- Every failure of RowBatch::new is a Serialization error. -/
theorem rowBatchNew_error_ser {ps : Schema} {blk : RowwiseRowBlockPb}
    {scs : List (List Nat)} {e : KErr} (h : RowBatch.new ps blk scs = .error e) :
    e = .serialization := by
  unfold RowBatch.new rowBatchFinish at h
  repeat' split at h
  all_goals
    first
      | (injection h with h2; exact h2.symm)
      | exact Except.noConfusion h

/-- The error characterization half of C7. -/
theorem rowBatchNew_ser_iff (ps : Schema) (blk : RowwiseRowBlockPb) (scs : List (List Nat)) :
    RowBatch.new ps blk scs = .error .serialization ↔
      ((blk.rows_sidecar = none ∨
        ∃ i, blk.rows_sidecar = some i ∧ (i < 0 ∨ scs.length ≤ i.toNat)) ∨
       (∃ j, blk.indirect_data_sidecar = some j ∧ (j < 0 ∨ scs.length ≤ j.toNat)) ∨
       2 ^ 64 ≤ blk.num_rows * rowLenTotal ps ∨
       (∃ i data, blk.rows_sidecar = some i ∧ scs[i.toNat]? = some data ∧
          blk.num_rows * rowLenTotal ps ≠ data.length)) := by
  unfold RowBatch.new
  rcases hrs : blk.rows_sidecar with _ | i
  · simp
  · dsimp only
    simp only [Option.some.injEq, reduceCtorEq, false_or]
    by_cases hi : i < 0
    · rw [if_pos hi]
      constructor
      · intro _
        exact Or.inl ⟨i, rfl, Or.inl hi⟩
      · intro _
        rfl
    · rw [if_neg hi]
      rcases hget : scs[i.toNat]? with _ | data
      · have hlen : scs.length ≤ i.toNat := List.getElem?_eq_none_iff.mp hget
        constructor
        · intro _
          exact Or.inl ⟨i, rfl, Or.inr hlen⟩
        · intro _
          rfl
      · have hin : i.toNat < scs.length := getElemq_lt hget
        have hrows_ok : ¬∃ i', i = i' ∧ (i' < 0 ∨ scs.length ≤ i'.toNat) := by
          rintro ⟨i', rfl, h | h⟩
          · exact hi h
          · omega
        rcases hind : blk.indirect_data_sidecar with _ | j
        · -- no indirect sidecar
          dsimp only
          unfold rowBatchFinish
          by_cases hov : blk.num_rows * rowLenTotal ps < 2 ^ 64
          · rw [if_pos hov]
            by_cases hlen : blk.num_rows * rowLenTotal ps = data.length
            · rw [if_pos hlen]
              simp only [reduceCtorEq, false_iff]
              rintro (h | h | h | h)
              · exact hrows_ok h
              · rcases h with ⟨j, hj, _⟩
                exact hj
              · omega
              · rcases h with ⟨i', d', hii, hd, hne⟩
                subst hii
                rw [hget] at hd
                injection hd with hd
                subst hd
                exact hne hlen
            · rw [if_neg hlen]
              constructor
              · intro _
                exact Or.inr (Or.inr (Or.inr ⟨i, data, rfl, hget, hlen⟩))
              · intro _
                rfl
          · rw [if_neg hov]
            constructor
            · intro _
              exact Or.inr (Or.inr (Or.inl (by omega)))
            · intro _
              rfl
        · -- indirect sidecar present
          dsimp only
          simp only [Option.some.injEq]
          by_cases hj : j < 0
          · rw [if_pos hj]
            constructor
            · intro _
              exact Or.inr (Or.inl ⟨j, rfl, Or.inl hj⟩)
            · intro _
              rfl
          · rw [if_neg hj]
            rcases hget2 : (scs.set i.toNat [])[j.toNat]? with _ | sc
            · have hlen2 : scs.length ≤ j.toNat := by
                have := List.getElem?_eq_none_iff.mp hget2
                simpa using this
              constructor
              · intro _
                exact Or.inr (Or.inl ⟨j, rfl, Or.inr hlen2⟩)
              · intro _
                rfl
            · dsimp only
              have hin2 : j.toNat < scs.length := by
                have := getElemq_lt hget2
                simpa using this
              have hind_ok : ¬∃ j', j = j' ∧ (j' < 0 ∨ scs.length ≤ j'.toNat) := by
                rintro ⟨j', rfl, h | h⟩
                · exact hj h
                · omega
              unfold rowBatchFinish
              by_cases hov : blk.num_rows * rowLenTotal ps < 2 ^ 64
              · rw [if_pos hov]
                by_cases hlen : blk.num_rows * rowLenTotal ps = data.length
                · rw [if_pos hlen]
                  simp only [reduceCtorEq, false_iff]
                  rintro (h | h | h | h)
                  · exact hrows_ok h
                  · rcases h with ⟨j', hjj, hbad⟩
                    exact hind_ok ⟨j', hjj, hbad⟩
                  · omega
                  · rcases h with ⟨i', d', hii, hd, hne⟩
                    subst hii
                    rw [hget] at hd
                    injection hd with hd
                    subst hd
                    exact hne hlen
                · rw [if_neg hlen]
                  constructor
                  · intro _
                    exact Or.inr (Or.inr (Or.inr ⟨i, data, rfl, hget, hlen⟩))
                  · intro _
                    rfl
              · rw [if_neg hov]
                constructor
                · intro _
                  exact Or.inr (Or.inr (Or.inl (by omega)))
                · intro _
                  rfl

/-- C7: RowBatch construction returns a Serialization error exactly when the
rows-sidecar index is missing, negative or out of range; or the
indirect-data-sidecar index is present and negative or out of range (absence
is permitted); or `num_rows * row_len` overflows a usize or differs from the
rows-sidecar length, with `row_len` the fixed-width sum of the projected
schema plus the null bitmap iff any projected column is nullable.  Otherwise
construction succeeds. -/
theorem C7_rowbatch_new_serialization_iff (ps : Schema) (blk : RowwiseRowBlockPb)
    (scs : List (List Nat)) :
    (RowBatch.new ps blk scs = .error .serialization ↔
      ((blk.rows_sidecar = none ∨
        ∃ i, blk.rows_sidecar = some i ∧ (i < 0 ∨ scs.length ≤ i.toNat)) ∨
       (∃ j, blk.indirect_data_sidecar = some j ∧ (j < 0 ∨ scs.length ≤ j.toNat)) ∨
       2 ^ 64 ≤ blk.num_rows * rowLenTotal ps ∨
       (∃ i data, blk.rows_sidecar = some i ∧ scs[i.toNat]? = some data ∧
          blk.num_rows * rowLenTotal ps ≠ data.length))) ∧
    (RowBatch.new ps blk scs = .error .serialization ∨
      ∃ b, RowBatch.new ps blk scs = .ok b) := by
  refine ⟨rowBatchNew_ser_iff ps blk scs, ?_⟩
  rcases hres : RowBatch.new ps blk scs with e | b
  · left
    rw [rowBatchNew_error_ser hres]
  · right
    exact ⟨b, rfl⟩

/-! ## C3: round-trip lemmas and the amended theorem -/

theorem beBytes_length (w u : Nat) : (beBytes w u).length = w := by
  induction w generalizing u with
  | zero => rfl
  | succ m ih => simp [beBytes, ih]

theorem beVal_append (xs : List Nat) (b : Nat) :
    beVal (xs ++ [b]) = beVal xs * 256 + b := by
  simp [beVal, List.foldl_append]

theorem beVal_beBytes : ∀ w u, u < 2 ^ (8 * w) → beVal (beBytes w u) = u := by
  intro w
  induction w with
  | zero =>
    intro u h
    simp at h
    simp [h, beBytes, beVal]
  | succ m ih =>
    intro u h
    rw [beBytes, beVal_append]
    have hpow : 2 ^ (8 * (m + 1)) = 2 ^ (8 * m) * 256 := by
      rw [show 8 * (m + 1) = 8 * m + 8 by ring, pow_add]
      norm_num
    rw [ih (u / 256) (by rw [hpow] at h; omega)]
    omega

theorem readBE_beBytes (w u : Nat) (rest : List Nat) :
    readBE w (beBytes w u ++ rest) = .ok (beVal (beBytes w u), rest) := by
  unfold readBE
  have hl : (beBytes w u).length = w := beBytes_length w u
  rw [if_pos (by simp [hl])]
  rw [List.take_left' hl, List.drop_left' hl]

theorem emod_small (v n : Int) (_hn : 0 < n) (h1 : -n ≤ v) (h2 : v < n) :
    v % n = if 0 ≤ v then v else v + n := by
  split
  · exact Int.emod_eq_of_lt (by assumption) h2
  · rename_i hneg
    have h3 : (v + n * 1) % n = v % n := Int.add_mul_emod_self_left v n 1
    rw [mul_one] at h3
    rw [← h3]
    exact Int.emod_eq_of_lt (by omega) (by omega)

theorem twosOfInt_bound (v : Int) (w : Nat) : twosOfInt v w < 2 ^ w := by
  unfold twosOfInt
  have hpos : (0:Int) < 2 ^ w := by positivity
  have h1 := Int.emod_lt_of_pos v hpos
  have h2 := Int.emod_nonneg v (ne_of_gt hpos)
  have h4 : ((2:Int) ^ w) = ((2 ^ w : Nat) : Int) := by push_cast; ring
  rw [h4] at h1 h2
  rw [h4]
  omega

theorem rt8 (v : Int) (h1 : -128 ≤ v) (h2 : v < 128) :
    intOfTwos (twosOfInt v 8) 8 = v := by
  unfold intOfTwos twosOfInt
  norm_num
  rw [emod_small v 256 (by norm_num) (by omega) (by omega)]
  split <;> split <;> omega

theorem rt16 (v : Int) (h1 : -32768 ≤ v) (h2 : v < 32768) :
    intOfTwos (twosOfInt v 16) 16 = v := by
  unfold intOfTwos twosOfInt
  norm_num
  rw [emod_small v 65536 (by norm_num) (by omega) (by omega)]
  split <;> split <;> omega

theorem rt32 (v : Int) (h1 : -2147483648 ≤ v) (h2 : v < 2147483648) :
    intOfTwos (twosOfInt v 32) 32 = v := by
  unfold intOfTwos twosOfInt
  norm_num
  rw [emod_small v 4294967296 (by norm_num) (by omega) (by omega)]
  split <;> split <;> omega

theorem rt64 (v : Int) (h1 : -9223372036854775808 ≤ v) (h2 : v < 9223372036854775808) :
    intOfTwos (twosOfInt v 64) 64 = v := by
  unfold intOfTwos twosOfInt
  norm_num
  rw [emod_small v 18446744073709551616 (by norm_num) (by omega) (by omega)]
  split <;> split <;> omega

theorem splitOnZero_ne_nil (v : List Nat) : splitOnZero v ≠ [] := by
  cases v with
  | nil => simp [splitOnZero]
  | cons b t =>
    rw [splitOnZero]
    split
    · simp
    · split <;> simp

theorem foldl_esc_append (l : List (List Nat)) :
    ∀ a : List Nat,
      l.foldl (fun acc s => acc ++ s ++ [0, 1]) a =
        a ++ l.foldl (fun acc s => acc ++ s ++ [0, 1]) [] := by
  induction l with
  | nil => intro a; simp
  | cons s ss ih =>
    intro a
    rw [List.foldl_cons, List.foldl_cons, ih (a ++ s ++ [0, 1]), ih ([] ++ s ++ [0, 1])]
    simp

theorem foldl_splitOnZero (v : List Nat) :
    (splitOnZero v).foldl (fun acc s => acc ++ s ++ [0, 1]) [] =
      escZeros v ++ [0, 1] := by
  induction v with
  | nil => simp [splitOnZero, escZeros]
  | cons b t ih =>
    by_cases hb : b = 0
    · subst hb
      rw [show splitOnZero (0 :: t) = [] :: splitOnZero t by rw [splitOnZero]; simp]
      rw [List.foldl_cons, foldl_esc_append, ih]
      simp [escZeros]
    · rcases hsp : splitOnZero t with _ | ⟨s, ss⟩
      · exact absurd hsp (splitOnZero_ne_nil t)
      · rw [show splitOnZero (b :: t) = (b :: s) :: ss by
          rw [splitOnZero]; rw [if_neg hb, hsp]]
        rw [List.foldl_cons, foldl_esc_append]
        rw [hsp, List.foldl_cons, foldl_esc_append] at ih
        rw [show escZeros (b :: t) = b :: escZeros t by
          rw [escZeros]; rw [if_neg hb]]
        simp only [List.nil_append, List.cons_append, List.append_assoc] at ih ⊢
        rw [ih]

theorem encode_binary_nonlast (v : List Nat) :
    encode_binary v false = escZeros v ++ [0, 0] := by
  unfold encode_binary
  rw [if_neg (by simp)]
  show ((splitOnZero v).foldl (fun acc s => acc ++ s ++ [0, 1]) []).dropLast ++ [0] = _
  rw [foldl_splitOnZero]
  rw [show escZeros v ++ [0, 1] = (escZeros v ++ [0]) ++ [1] by simp]
  rw [List.dropLast_concat]
  simp

theorem decodeBinaryLoop_escZeros (v : List Nat) :
    ∀ (acc rest : List Nat),
      decodeBinaryLoop (escZeros v ++ 0 :: 0 :: rest) acc = .ok (acc ++ v, rest) := by
  induction v with
  | nil =>
    intro acc rest
    simp [escZeros, decodeBinaryLoop]
  | cons b t ih =>
    intro acc rest
    by_cases hb : b = 0
    · subst hb
      rw [show escZeros (0 :: t) = 0 :: 1 :: escZeros t by rw [escZeros]; simp]
      simp only [List.cons_append]
      rw [decodeBinaryLoop.eq_def]
      simp only [reduceIte]
      rw [ih (acc ++ [0]) rest]
      simp
    · rw [show escZeros (b :: t) = b :: escZeros t by rw [escZeros]; rw [if_neg hb]]
      simp only [List.cons_append]
      rw [decodeBinaryLoop.eq_def]
      simp only [hb, reduceIte, if_neg hb]
      rw [ih (acc ++ [b]) rest]
      simp

theorem decode_binary_encode (v rest : List Nat) :
    decode_binary (encode_binary v false ++ rest) false = .ok (v, rest) := by
  unfold decode_binary
  rw [if_neg (by simp)]
  rw [encode_binary_nonlast]
  rw [show (escZeros v ++ [0, 0]) ++ rest = escZeros v ++ 0 :: 0 :: rest by simp]
  rw [decodeBinaryLoop_escZeros v [] rest]
  simp

theorem readBE_beBytes_nil (w u : Nat) :
    readBE w (beBytes w u) = .ok (beVal (beBytes w u), []) := by
  rw [show beBytes w u = beBytes w u ++ [] by simp]
  rw [readBE_beBytes]
  simp

theorem decode_encode_col_nonlast (t : DataType) (v : Value)
    (hwf : wfValue t v = true) (hni : t ≠ .int64) (e : List Nat)
    (henc : encode_column t v false = some e) (rest : List Nat) :
    decode_column t (e ++ rest) false = .ok (v, rest) := by
  cases t <;> cases v <;> simp [wfValue] at hwf <;>
    simp only [encode_column, Option.some.injEq] at henc <;> subst henc
  case int64.vInt x => exact absurd rfl hni
  case bool.vBool b =>
    cases b <;> simp [decode_column]
  case int8.vInt x =>
    simp only [decode_column, List.cons_append, List.nil_append]
    rw [rt8 x (by omega) (by omega)]
  case int16.vInt x =>
    simp only [decode_column, readBE_beBytes, Bind.bind, Except.bind]
    rw [beVal_beBytes 2 _ (by have := twosOfInt_bound x 16; norm_num at this ⊢; omega)]
    rw [rt16 x (by omega) (by omega)]
  case int32.vInt x =>
    simp only [decode_column, readBE_beBytes, Bind.bind, Except.bind]
    rw [beVal_beBytes 4 _ (by have := twosOfInt_bound x 32; norm_num at this ⊢; omega)]
    rw [rt32 x (by omega) (by omega)]
  case timestamp.vInt x =>
    simp only [decode_column, readBE_beBytes, Bind.bind, Except.bind]
    rw [beVal_beBytes 8 _ (by have := twosOfInt_bound x 64; norm_num at this ⊢; omega)]
    rw [rt64 x (by omega) (by omega)]
  case float.vFloat bits =>
    simp only [decode_column, readBE_beBytes, Bind.bind, Except.bind]
    rw [beVal_beBytes 4 _ (by norm_num; omega)]
  case double.vDouble bits =>
    simp only [decode_column, readBE_beBytes, Bind.bind, Except.bind]
    rw [beVal_beBytes 8 _ (by norm_num; omega)]
  case binary.vBytes bs =>
    simp [decode_column, decode_binary_encode, Bind.bind, Except.bind]
  case string.vString bs =>
    simp only [decode_column, decode_binary_encode, Bind.bind, Except.bind]
    rw [if_pos hwf.2]

theorem decode_encode_col_last (t : DataType) (v : Value)
    (hwf : wfValue t v = true) (hni : t ≠ .int64) (e : List Nat)
    (henc : encode_column t v true = some e) :
    decode_column t e true = .ok (v, []) := by
  cases t <;> cases v <;> simp [wfValue] at hwf <;>
    simp only [encode_column, Option.some.injEq] at henc <;> subst henc
  case int64.vInt x => exact absurd rfl hni
  case bool.vBool b =>
    cases b <;> simp [decode_column]
  case int8.vInt x =>
    simp only [decode_column]
    rw [rt8 x (by omega) (by omega)]
  case int16.vInt x =>
    simp only [decode_column, readBE_beBytes_nil, Bind.bind, Except.bind]
    rw [beVal_beBytes 2 _ (by have := twosOfInt_bound x 16; norm_num at this ⊢; omega)]
    rw [rt16 x (by omega) (by omega)]
  case int32.vInt x =>
    simp only [decode_column, readBE_beBytes_nil, Bind.bind, Except.bind]
    rw [beVal_beBytes 4 _ (by have := twosOfInt_bound x 32; norm_num at this ⊢; omega)]
    rw [rt32 x (by omega) (by omega)]
  case timestamp.vInt x =>
    simp only [decode_column, readBE_beBytes_nil, Bind.bind, Except.bind]
    rw [beVal_beBytes 8 _ (by have := twosOfInt_bound x 64; norm_num at this ⊢; omega)]
    rw [rt64 x (by omega) (by omega)]
  case float.vFloat bits =>
    simp only [decode_column, readBE_beBytes_nil, Bind.bind, Except.bind]
    rw [beVal_beBytes 4 _ (by norm_num; omega)]
  case double.vDouble bits =>
    simp only [decode_column, readBE_beBytes_nil, Bind.bind, Except.bind]
    rw [beVal_beBytes 8 _ (by norm_num; omega)]
  case binary.vBytes bs =>
    simp [decode_column, decode_binary, encode_binary, Bind.bind, Except.bind]
  case string.vString bs =>
    simp only [decode_column, decode_binary, encode_binary, reduceIte, Bind.bind,
      Except.bind]
    rw [if_pos hwf.2]

theorem encodeColumns_total :
    ∀ l : List (DataType × Value), (∀ p ∈ l, wfValue p.1 p.2 = true) →
      ∃ k, encodeColumns l = some k := by
  intro l
  induction l with
  | nil => intro _; exact ⟨[], rfl⟩
  | cons p rest ih =>
    intro h
    rcases p with ⟨t, v⟩
    have hw := h (t, v) (by simp)
    have hsome : ∃ e, encode_column t v rest.isEmpty = some e := by
      cases t <;> cases v <;> simp [wfValue] at hw <;> simp [encode_column]
    rcases hsome with ⟨e, he⟩
    rcases ih (fun q hq => h q (List.mem_cons_of_mem _ hq)) with ⟨es, hes⟩
    refine ⟨e ++ es, ?_⟩
    unfold encodeColumns
    rw [he, hes]
    rfl

theorem decodeColumns_encodeColumns :
    ∀ l : List (DataType × Value),
      (∀ p ∈ l, wfValue p.1 p.2 = true ∧ p.1 ≠ .int64) →
      ∀ k, encodeColumns l = some k →
      decodeColumns (l.map Prod.fst) k = .ok (l.map Prod.snd, []) := by
  intro l
  induction l with
  | nil =>
    intro _ k hk
    simp [encodeColumns] at hk
    subst hk
    simp [decodeColumns]
  | cons p rest ih =>
    rcases p with ⟨t, v⟩
    intro h k hk
    rcases h (t, v) (by simp) with ⟨hw, hni⟩
    have hrest := fun q hq => h q (List.mem_cons_of_mem _ hq)
    unfold encodeColumns at hk
    rcases he : encode_column t v rest.isEmpty with _ | e
    · rw [he] at hk; simp at hk
    · rw [he] at hk
      rcases hes : encodeColumns rest with _ | es
      · rw [hes] at hk; simp at hk
      · rw [hes] at hk
        simp at hk
        subst hk
        cases rest with
        | nil =>
          simp [encodeColumns] at hes
          subst hes
          simp only [List.isEmpty_nil] at he
          simp only [List.map_nil, List.map_cons, List.append_nil]
          unfold decodeColumns
          rw [show (([] : List DataType).isEmpty) = true from rfl]
          rw [decode_encode_col_last t v hw hni e he]
          simp [decodeColumns, Bind.bind, Except.bind]
        | cons q rest' =>
          simp only [List.map_cons]
          unfold decodeColumns
          rw [show ((Prod.fst q :: List.map Prod.fst rest').isEmpty) = false from rfl]
          rw [decode_encode_col_nonlast t v hw hni e (by simpa using he) es]
          have ihh := ih hrest es hes
          simp only [List.map_cons] at ihh
          simp only [Bind.bind, Except.bind]
          rw [ihh]

theorem pkTypes_length (s : Schema) (h : s.num_primary_key_columns ≤ s.columns.length) :
    s.pkTypes.length = s.num_primary_key_columns := by
  simp [Schema.pkTypes]
  omega

/-- C3 as amended: for every schema whose primary-key columns contain no
Int64 column, and every row valid under the primary key, encoding succeeds
and decoding the encoding returns exactly the primary-key values of the
row. -/
theorem C3_roundtrip_no_int64 (s : Schema) (vals : List Value)
    (hwf : wfRow s vals = true) (hni : pkNoInt64 s = true) :
    ∃ k, encode_primary_key ⟨s, vals⟩ = some k ∧
      decode_primary_key s k = .ok (vals.take s.num_primary_key_columns) := by
  unfold wfRow at hwf
  simp only [Bool.and_eq_true, decide_eq_true_eq, List.all_eq_true] at hwf
  rcases hwf with ⟨⟨h1, h2⟩, h3⟩
  have hlen1 : s.pkTypes.length = s.num_primary_key_columns := pkTypes_length s h1
  have hlen2 : (vals.take s.num_primary_key_columns).length = s.num_primary_key_columns := by
    simp
    omega
  have hfst : (s.pkTypes.zip (vals.take s.num_primary_key_columns)).map Prod.fst = s.pkTypes :=
    List.map_fst_zip _ _ (by omega)
  have hsnd : (s.pkTypes.zip (vals.take s.num_primary_key_columns)).map Prod.snd =
      vals.take s.num_primary_key_columns :=
    List.map_snd_zip _ _ (by omega)
  have hall : ∀ p ∈ s.pkTypes.zip (vals.take s.num_primary_key_columns),
      wfValue p.1 p.2 = true ∧ p.1 ≠ .int64 := by
    intro p hp
    refine ⟨h3 p hp, ?_⟩
    have hmem : p.1 ∈ s.pkTypes := by
      rw [← hfst]
      exact List.mem_map_of_mem _ hp
    unfold pkNoInt64 at hni
    simp only [List.all_eq_true, decide_eq_true_eq] at hni
    exact hni p.1 hmem
  rcases encodeColumns_total _ (fun p hp => (hall p hp).1) with ⟨k, hk⟩
  refine ⟨k, ?_, ?_⟩
  · unfold encode_primary_key
    rw [if_pos ⟨h1, h2⟩]
    exact hk
  · unfold decode_primary_key
    rw [if_pos h1]
    rw [show s.pkTypes = (s.pkTypes.zip (vals.take s.num_primary_key_columns)).map Prod.fst
        from hfst.symm]
    rw [decodeColumns_encodeColumns _ hall k hk]
    simp only [Bind.bind, Except.bind, hsnd]
    rfl

/-- C3 witness: the seed row of the claim round-trips through the codec. -/
theorem C3_roundtrip_no_int64_witness :
    wfRow sSeed [Value.vString seedA, Value.vInt 99, Value.vString seedC] = true ∧
    pkNoInt64 sSeed = true ∧
    ∃ k, encode_primary_key seedRow = some k ∧
      decode_primary_key sSeed k =
        .ok ([Value.vString seedA, Value.vInt 99, Value.vString seedC].take
          sSeed.num_primary_key_columns) :=
  ⟨by decide, by decide,
   C3_roundtrip_no_int64 sSeed [Value.vString seedA, Value.vInt 99, Value.vString seedC]
     (by decide) (by decide)⟩


/-! ## C8, C9, C10: scan state machine theorems -/

theorem memcmp_self (a : List Nat) : memcmp a a = .eq := by
  induction a with
  | nil => rfl
  | cons b t ih => simp [memcmp, ih]

theorem leB_refl (a : List Nat) : leB a a = true := by
  simp [leB, memcmp_self]

theorem ltB_leB {a b : List Nat} (h : ltB a b = true) : leB a b = true := by
  unfold ltB at h
  unfold leB
  rcases hm : memcmp a b with _ | _ | _ <;> simp_all [hm]

theorem monotoneB_tail {a : List Nat} {l : List (List Nat)}
    (h : monotoneB (a :: l) = true) : monotoneB l = true := by
  cases l with
  | nil => rfl
  | cons b t =>
    rw [monotoneB] at h
    simp only [Bool.and_eq_true] at h
    exact h.2

theorem monotone_aux (ps : Schema) :
    ∀ (subs : List SubPoll) (s : ScannerState) (last : List Nat),
      CompatRun ps s subs = true → boundOk last s = true →
      monotoneB (last :: lookupKeys ps s subs) = true := by
  intro subs
  induction subs with
  | nil =>
    intro s last _ hb
    cases s with
    | Lookup k =>
      simp only [lookupKeys, runStates, List.filterMap, stateKey]
      rw [monotoneB]
      simp only [boundOk] at hb
      simp [hb, monotoneB]
    | Scan t ts => simp [lookupKeys, runStates, List.filterMap, stateKey, monotoneB]
    | Finished => simp [lookupKeys, runStates, List.filterMap, stateKey, monotoneB]
  | cons r rs ih =>
    intro s last hc hb
    rw [CompatRun] at hc
    simp only [Bool.and_eq_true] at hc
    rcases hc with ⟨hc1, hc2⟩
    cases s with
    | Lookup k =>
      have hkeys : lookupKeys ps (.Lookup k) (r :: rs) =
          k :: lookupKeys ps (Scan.step ps (.Lookup k) r).1 rs := by
        simp [lookupKeys, runStates, List.filterMap_cons, stateKey]
      rw [hkeys, monotoneB]
      simp only [boundOk] at hb
      simp only [Bool.and_eq_true]
      refine ⟨hb, ?_⟩
      refine ih _ k hc2 ?_
      cases r with
      | lk lr =>
        cases lr with
        | Err e => simp [Scan.step, boundOk]
        | NotReady => simp [Scan.step, boundOk, leB_refl]
        | Ready en =>
          cases en with
          | Tablet t =>
            simp only [Scan.step, boundOk]
            simp only [CompatB] at hc1
            simp only [Bool.or_eq_true] at hc1
            rcases hc1 with h | h
            · simp [h]
            · simp [ltB_leB h]
          | NonCoveredRange lb ub =>
            simp only [Scan.step]
            simp only [CompatB] at hc1
            by_cases hub : ub.isEmpty
            · simp [hub, boundOk]
            · rw [if_neg hub]
              simp only [boundOk]
              simp only [Bool.or_eq_true] at hc1
              rcases hc1 with h | h
              · exact absurd h (by simpa using hub)
              · exact ltB_leB h
      | ts rr => simp [CompatB] at hc1
    | Scan t ts =>
      have hkeys : lookupKeys ps (.Scan t ts) (r :: rs) =
          lookupKeys ps (Scan.step ps (.Scan t ts) r).1 rs := by
        simp [lookupKeys, runStates, List.filterMap_cons, stateKey]
      rw [hkeys]
      refine ih _ last hc2 ?_
      cases r with
      | lk lr => simp [CompatB] at hc1
      | ts rr =>
        simp only [boundOk] at hb
        rcases htp : TabletScan.poll ts rr with ⟨ts2, out⟩
        cases out with
        | Ready ob =>
          cases ob with
          | some b => simp [Scan.step, htp, boundOk, hb]
          | none =>
            simp only [Scan.step, htp]
            by_cases hub : t.upper_bound.isEmpty
            · simp [hub, boundOk]
            · rw [if_neg hub]
              simp only [boundOk]
              simp only [Bool.or_eq_true] at hb
              rcases hb with h | h
              · exact absurd h (by simpa using hub)
              · exact h
        | NotReady => simp [Scan.step, htp, boundOk, hb]
        | Err e => simp [Scan.step, htp, boundOk]
        | Stuck => simp [Scan.step, htp, boundOk]
    | Finished =>
      have hkeys : lookupKeys ps .Finished (r :: rs) =
          lookupKeys ps (Scan.step ps .Finished r).1 rs := by
        simp [lookupKeys, runStates, List.filterMap_cons, stateKey]
      rw [hkeys]
      refine ih _ last hc2 ?_
      cases r <;> simp [Scan.step, boundOk]

/-- C8: the scan starts its lookups at the empty (minus-infinity) key; along
any trace compatible with the meta-cache contract the sequence of lookup keys
is memcmp non-decreasing; a non-covered range re-enters Lookup at its upper
bound, or leaves the state Finished exactly when that upper bound is empty;
and a drained tablet re-enters Lookup at the tablet upper bound, or leaves
the state Finished exactly when it is empty. -/
theorem C8_lookup_keys_monotone :
    (∀ (b : ScanBuilder) (s : Scan), ScanBuilder.build b = some s →
      s.state = .Lookup []) ∧
    (∀ (ps : Schema) (subs : List SubPoll),
      CompatRun ps (.Lookup []) subs = true →
      monotoneB (lookupKeys ps (.Lookup []) subs) = true) ∧
    (∀ (ps : Schema) (k lb ub : List Nat),
      Scan.step ps (.Lookup k) (.lk (.Ready (.NonCoveredRange lb ub))) =
        ((if ub.isEmpty then .Finished else .Lookup ub), none)) ∧
    (∀ (ps : Schema) (t : Tablet) (ts : TabletScan) (r : RpcPoll),
      (TabletScan.poll ts r).2 = .Ready none →
      Scan.step ps (.Scan t ts) (.ts r) =
        ((if t.upper_bound.isEmpty then .Finished else .Lookup t.upper_bound), none)) := by
  refine ⟨?_, ?_, ?_, ?_⟩
  · intro b s h
    unfold ScanBuilder.build at h
    split at h
    · injection h with h2
      rw [← h2]
    · exact Option.noConfusion h
  · intro ps subs h
    exact monotoneB_tail (monotone_aux ps subs (.Lookup []) [] h (leB_refl []))
  · intro ps k lb ub
    rfl
  · intro ps t ts r h
    rcases htp : TabletScan.poll ts r with ⟨ts2, out⟩
    rw [htp] at h
    simp only at h
    subst h
    simp [Scan.step, htp]

/-- C8 witness: a concrete compatible trace (a non-covered range, then a
tablet, then an error) with monotone lookup keys. -/
theorem C8_lookup_keys_monotone_witness :
    CompatRun psEmpty (.Lookup [])
      [.lk (.Ready (.NonCoveredRange [] [2])),
       .lk (.Ready (.Tablet ⟨[9], [2], [4]⟩)),
       .ts (.Err .other)] = true ∧
    monotoneB (lookupKeys psEmpty (.Lookup [])
      [.lk (.Ready (.NonCoveredRange [] [2])),
       .lk (.Ready (.Tablet ⟨[9], [2], [4]⟩)),
       .ts (.Err .other)]) = true :=
  ⟨by decide,
   C8_lookup_keys_monotone.2.1 psEmpty
     [.lk (.Ready (.NonCoveredRange [] [2])),
      .lk (.Ready (.Tablet ⟨[9], [2], [4]⟩)),
      .ts (.Err .other)] (by decide)⟩

/-- C9: the open-scan RPC is built with Speculation::Staggered(100 ms) and
Selection::Closest against the tablet; on a response announcing more
results the state moves to Continue carrying the server-returned scanner id
with call sequence id 1, an RPC with Speculation::Full pinned to the proxy
that produced the response; and each further response with more results
re-issues against the responding proxy with the call sequence id increased by
exactly 1 and the same scanner id. -/
theorem C9_tablet_scan_rpc_parameters :
    (∀ (ps : Schema) (t : Tablet) (req : NewScanRequestPb),
      TabletScan.new ps t req =
        .New ps ⟨t, ⟨some req, none, none⟩, .Staggered 100, .Closest⟩) ∧
    (∀ (ps : Schema) (rpc : ReplicaRpc Tablet) (proxy : Proxy)
       (resp : ScanResponsePb) (scs : List (List Nat)) (sid : ScannerId) (b : RowBatch),
      resp.has_more_results = true →
      resp.scanner_id = some sid →
      RowBatch.new ps (resp.data.getD defaultBlock) scs = .ok b →
      TabletScan.poll (.New ps rpc) (.Ready proxy resp scs) =
        (.Continue ps sid 1 ⟨proxy, ⟨none, some sid, some 1⟩, .Full, .Closest⟩,
         .Ready (some b))) ∧
    (∀ (ps : Schema) (sid : ScannerId) (n : Nat) (rpc : ReplicaRpc Proxy)
       (proxy : Proxy) (resp : ScanResponsePb) (scs : List (List Nat)) (b : RowBatch),
      resp.has_more_results = true →
      RowBatch.new ps (resp.data.getD defaultBlock) scs = .ok b →
      TabletScan.poll (.Continue ps sid n rpc) (.Ready proxy resp scs) =
        (.Continue ps sid (n + 1) ⟨proxy, ⟨none, some sid, some (n + 1)⟩, .Full, .Closest⟩,
         .Ready (some b))) := by
  refine ⟨fun ps t req => rfl, ?_, ?_⟩
  · intro ps rpc proxy resp scs sid b hmore hsid hb
    simp only [TabletScan.poll]
    rw [hb, hmore, hsid]
    simp [TabletScan.cont]
  · intro ps sid n rpc proxy resp scs b hmore hb
    simp only [TabletScan.poll]
    rw [hb, hmore]
    simp [TabletScan.cont]

/-- C9 witness: a concrete open-scan response with more results moves to a
Continue state with call sequence id 1 pinned to the responding proxy. -/
theorem C9_tablet_scan_rpc_parameters_witness :
    ScanResponsePb.has_more_results ⟨true, some [7], some ⟨1, some 0, none⟩⟩ = true ∧
    ScanResponsePb.scanner_id ⟨true, some [7], some ⟨1, some 0, none⟩⟩ = some [7] ∧
    RowBatch.new sInt32Pk
      ((ScanResponsePb.data ⟨true, some [7], some ⟨1, some 0, none⟩⟩).getD defaultBlock)
      [[1, 2, 3, 4]] = .ok ⟨sInt32Pk, 1, [1, 2, 3, 4], []⟩ ∧
    TabletScan.poll (.New sInt32Pk ⟨t0, ⟨none, none, none⟩, .Full, .Closest⟩)
      (.Ready ⟨3⟩ ⟨true, some [7], some ⟨1, some 0, none⟩⟩ [[1, 2, 3, 4]]) =
      (.Continue sInt32Pk [7] 1 ⟨⟨3⟩, ⟨none, some [7], some 1⟩, .Full, .Closest⟩,
       .Ready (some ⟨sInt32Pk, 1, [1, 2, 3, 4], []⟩)) :=
  ⟨rfl, rfl, rfl,
   C9_tablet_scan_rpc_parameters.2.1 sInt32Pk ⟨t0, ⟨none, none, none⟩, .Full, .Closest⟩
     ⟨3⟩ ⟨true, some [7], some ⟨1, some 0, none⟩⟩ [[1, 2, 3, 4]] [7]
     ⟨sInt32Pk, 1, [1, 2, 3, 4], []⟩ rfl rfl rfl⟩

/-- One returning step never reports an error while leaving the state other
than Finished, and never reports end-of-stream at all (end-of-stream returns
come only from the Finished arm of poll). -/
theorem step_some_out_spec (ps : Schema) (s : ScannerState) (r : SubPoll)
    (s' : ScannerState) (out : PollOut)
    (h : Scan.step ps s r = (s', some out)) :
    (∀ e, out = .Err e → s' = .Finished) ∧ (out = .Ready none → s' = .Finished) := by
  cases s with
  | Lookup k =>
    cases r with
    | lk rr =>
      cases rr with
      | Ready en =>
        cases en with
        | Tablet t => simp [Scan.step] at h
        | NonCoveredRange lb ub => simp [Scan.step] at h
      | NotReady =>
        simp [Scan.step] at h
        rcases h with ⟨h1, h2⟩
        subst h2
        simp
      | Err e2 =>
        simp [Scan.step] at h
        rcases h with ⟨h1, h2⟩
        subst h2
        subst h1
        refine ⟨fun e he => rfl, by simp⟩
    | ts rr =>
      simp [Scan.step] at h
      rcases h with ⟨h1, h2⟩
      subst h2
      simp
  | Scan t ts =>
    cases r with
    | lk rr =>
      simp [Scan.step] at h
      rcases h with ⟨h1, h2⟩
      subst h2
      simp
    | ts rr =>
      rcases htp : TabletScan.poll ts rr with ⟨ts2, o⟩
      cases o with
      | Ready ob =>
        cases ob with
        | none => simp [Scan.step, htp] at h
        | some b =>
          simp [Scan.step, htp] at h
          rcases h with ⟨h1, h2⟩
          subst h2
          simp
      | NotReady =>
        simp [Scan.step, htp] at h
        rcases h with ⟨h1, h2⟩
        subst h2
        simp
      | Err e2 =>
        simp [Scan.step, htp] at h
        rcases h with ⟨h1, h2⟩
        subst h2
        subst h1
        refine ⟨fun e he => rfl, by simp⟩
      | Stuck =>
        simp [Scan.step, htp] at h
        rcases h with ⟨h1, h2⟩
        subst h2
        simp
  | Finished =>
    cases r <;>
      (simp [Scan.step] at h
       rcases h with ⟨h1, h2⟩
       exact ⟨fun e _ => h1.symm, fun _ => h1.symm⟩)

/-- The cons unfolding of pollRun for a state other than Finished. -/
theorem pollRun_cons (ps : Schema) (s : ScannerState) (r : SubPoll) (rs : List SubPoll)
    (hs : s ≠ .Finished) :
    Scan.pollRun ps s (r :: rs) =
      match Scan.step ps s r with
      | (s2, some out) => (s2, some out, rs)
      | (s2, none) => Scan.pollRun ps s2 rs := by
  cases s with
  | Lookup k => rfl
  | Scan t ts => rfl
  | Finished => exact absurd rfl hs

/-- C10: once Scan::poll returns an error or end-of-stream, the scan state is
Finished; a poll of a Finished scan returns end-of-stream immediately,
consuming nothing, for every trace (so an error is surfaced at most once and
no batch follows); and a Finished TabletScan answers every poll with
end-of-stream. -/
theorem C10_finished_is_terminal :
    (∀ (ps : Schema) (s : ScannerState) (subs : List SubPoll) (s' : ScannerState)
       (e : KErr) (rest : List SubPoll),
      Scan.pollRun ps s subs = (s', some (.Err e), rest) → s' = .Finished) ∧
    (∀ (ps : Schema) (s : ScannerState) (subs : List SubPoll) (s' : ScannerState)
       (rest : List SubPoll),
      Scan.pollRun ps s subs = (s', some (.Ready none), rest) → s' = .Finished) ∧
    (∀ (ps : Schema) (subs : List SubPoll),
      Scan.pollRun ps .Finished subs = (.Finished, some (.Ready none), subs)) ∧
    (∀ r : RpcPoll, TabletScan.poll .Finished r = (.Finished, .Ready none)) := by
  have hfin : ∀ (ps : Schema) (subs : List SubPoll),
      Scan.pollRun ps .Finished subs = (.Finished, some (.Ready none), subs) := by
    intro ps subs
    cases subs <;> rfl
  refine ⟨?_, ?_, hfin, fun r => rfl⟩
  · intro ps s subs
    induction subs generalizing s with
    | nil =>
      intro s' e rest h
      cases s <;> simp [Scan.pollRun] at h
    | cons r rs ih =>
      intro s' e rest h
      by_cases hs : s = ScannerState.Finished
      · subst hs
        rw [hfin] at h
        simp at h
      · rw [pollRun_cons ps s r rs hs] at h
        rcases hstep : Scan.step ps s r with ⟨s2, o⟩
        simp only [hstep] at h
        cases o with
        | some out =>
          simp only [Prod.mk.injEq, Option.some.injEq] at h
          rcases h with ⟨h1, h2, h3⟩
          subst h1
          exact (step_some_out_spec ps s r s2 out hstep).1 e h2
        | none =>
          dsimp only at h
          exact ih s2 s' e rest h
  · intro ps s subs
    induction subs generalizing s with
    | nil =>
      intro s' rest h
      cases s with
      | Lookup k => simp [Scan.pollRun] at h
      | Scan t ts => simp [Scan.pollRun] at h
      | Finished =>
        simp [Scan.pollRun] at h
        exact h.1.symm
    | cons r rs ih =>
      intro s' rest h
      by_cases hs : s = ScannerState.Finished
      · subst hs
        rw [hfin] at h
        simp at h
        exact h.1.symm
      · rw [pollRun_cons ps s r rs hs] at h
        rcases hstep : Scan.step ps s r with ⟨s2, o⟩
        simp only [hstep] at h
        cases o with
        | some out =>
          simp only [Prod.mk.injEq, Option.some.injEq] at h
          rcases h with ⟨h1, h2, h3⟩
          subst h1
          exact (step_some_out_spec ps s r s2 out hstep).2 h2
        | none =>
          dsimp only at h
          exact ih s2 s' rest h

/-- C10 witness: after a concrete erroring poll the state is Finished, and a
subsequent poll of the Finished scan returns end-of-stream. -/
theorem C10_finished_is_terminal_witness :
    Scan.pollRun psEmpty (.Lookup []) [.lk (.Err .other)] =
      (.Finished, some (.Err .other), []) ∧
    ScannerState.Finished = .Finished ∧
    Scan.pollRun psEmpty .Finished [.lk .NotReady] =
      (.Finished, some (.Ready none), [.lk .NotReady]) :=
  ⟨rfl,
   C10_finished_is_terminal.1 psEmpty (.Lookup []) [.lk (.Err .other)] .Finished .other [] rfl,
   C10_finished_is_terminal.2.2.1 psEmpty [.lk .NotReady]⟩


end KuduRs
